import Mathlib

/-!
Verification of the confd backend clients: the zookeeper backend (hierarchical
watch adapter), the ssm/kinesis backend (stream cursor adapter) and the rancher
metadata backend (polling stub adapter with connection bootstrap).

The Go sources are shallowly embedded: every external service (zookeeper server,
AWS SSM / Kinesis, the rancher metadata HTTP endpoint, the JSON decoder) is
modelled as an explicit oracle or as a static store passed to the embedded
function, Go maps become association lists with upsert semantics, Go errors
become `Option`/`Except` values, and a Go panic (failed type assertion) is an
explicit `Except.error`.  Concurrency in the zookeeper WatchPrefix is modelled
by its observable outcome: which of the competing events (external stop signal
or first relayed watch response) wins the final select.
-/

set_option linter.unusedVariables false

set_option linter.unusedTactic false

/-! ## Go maps and small string helpers -/

/-- A Go `map[string]string`, modelled as an association list without duplicate
keys; `insertS` is the Go map assignment `m[k] = v` (replace or append). -/
abbrev Smap := List (String × String)

/-- Lookup in the association-list model of a Go string map. -/
def lookupS : Smap → String → Option String
  | [], _ => none
  | (k, v) :: rest, q => if k = q then some v else lookupS rest q

/-- Go map assignment `m[k] = v`: replace the binding of `k` if present,
otherwise append it. -/
def insertS : Smap → String → String → Smap
  | [], k, v => [(k, v)]
  | (k', v') :: rest, k, v =>
    if k' = k then (k, v) :: rest else (k', v') :: insertS rest k v

/-- Go `for k, v := range src { m[k] = v }`: fold `insertS` over a list of
bindings. -/
def insertAll (m : Smap) (src : Smap) : Smap :=
  src.foldl (fun acc p => insertS acc p.1 p.2) m

/-- Remove every (non-overlapping, left-to-right) occurrence of the two
characters slash-star from a character list.  This is Go
`strings.Replace(s, "/\x2a", "", -1)` specialised to the only pattern the
source uses. -/
def removeSlashStar : List Char → List Char
  | [] => []
  | '/' :: '*' :: rest => removeSlashStar rest
  | c :: rest => c :: removeSlashStar rest

/-- `strings.Replace(v, "/\x2a", "", -1)` from the zookeeper GetValues. -/
def goReplaceSlashStar (s : String) : String :=
  String.mk (removeSlashStar s.data)

/-- Go `strings.HasPrefix(s, pre)`. -/
def hasPrefixGo (s pre : String) : Bool :=
  pre.data.isPrefixOf s.data

/-- Split a character list at every slash (used to resolve a slash-delimited
zookeeper path against the modelled store). -/
def splitSlash : List Char → List (List Char)
  | [] => [[]]
  | '/' :: rest => [] :: splitSlash rest
  | c :: rest =>
    match splitSlash rest with
    | [] => [[c]]
    | seg :: segs => (c :: seg) :: segs

/-- The non-empty slash-separated segments of a path string. -/
def pathSegs (s : String) : List String :=
  ((splitSlash s.data).map String.mk).filter (fun seg => seg ≠ "")

/-- Go `strconv.Itoa` for the non-negative indexes produced by `range`. -/
def itoa (n : Nat) : String := toString n

/-- Go `strconv.FormatBool`. -/
def formatBoolGo (b : Bool) : String := if b then "true" else "false"

/-- Go `strconv.FormatFloat(x, 'f', -1, 64)` — the shortest exact decimal —
restricted to integer-valued float64 numbers, where it prints the plain
decimal integer.  JSON numbers are modelled as integer-valued doubles. -/
def formatFloatGo (x : Int) : String := toString x

/-! ## Zookeeper backend: the hierarchical store model -/

/-- Errors surfaced by the modelled zookeeper client.  `noNode` is
`zk.ErrNoNode`, returned when an operation targets an absent node. -/
inductive ZkErr where
  | noNode
  deriving DecidableEq

mutual
/-- A zookeeper node: a value plus named children (the static store the
modelled client talks to; transport is assumed healthy). -/
inductive ZNode where
  | mk : String → ZForest → ZNode
  deriving DecidableEq
/-- The ordered children of a zookeeper node, each with its path segment. -/
inductive ZForest where
  | nil : ZForest
  | cons : String → ZNode → ZForest → ZForest
  deriving DecidableEq
end

/-- The value stored at a node. -/
def ZNode.value : ZNode → String
  | .mk v _ => v

/-- The children of a node. -/
def ZNode.children : ZNode → ZForest
  | .mk _ f => f

/-- The number of children (`Stat.NumChildren` of the zookeeper answer). -/
def ZForest.length : ZForest → Nat
  | .nil => 0
  | .cons _ _ rest => 1 + rest.length

/-- Find a child by its path segment. -/
def childLookup : ZForest → String → Option ZNode
  | .nil, _ => none
  | .cons k c rest, q => if k = q then some c else childLookup rest q

/-- Resolve a list of path segments against the store. -/
def resolveSegs : ZNode → List String → Option ZNode
  | t, [] => some t
  | t, seg :: rest =>
    match childLookup t.children seg with
    | none => none
    | some c => resolveSegs c rest

/-- Resolve a slash-delimited zookeeper path against the store: the node the
real server would answer for (`none` = the server answers `zk.ErrNoNode`). -/
def resolvePath (t : ZNode) (p : String) : Option ZNode :=
  resolveSegs t (pathSegs p)

mutual
/-- `nodeWalk` from the zookeeper client, run at a resolved node `t` whose path
string is `pfx`: a node with zero children is a leaf — record its value under
its full path; otherwise walk the children (`nodeWalkF`).  In the static store
the per-child `Exists`/`Get` re-checks of the source always succeed, so no
error can arise below a resolved node. -/
def nodeWalkT : ZNode → String → Smap → Smap × Option ZkErr
  | .mk value .nil, pfx, vars => (insertS vars pfx value, none)
  | .mk _ (.cons k c rest), pfx, vars => nodeWalkF (.cons k c rest) pfx vars
/-- The `for _, key := range l` loop body of `nodeWalk`: for each child
`s := prefix + "/" + key`; a child with zero children is read as a leaf,
otherwise `nodeWalk` recurses (its error is discarded, as in the source). -/
def nodeWalkF : ZForest → String → Smap → Smap × Option ZkErr
  | .nil, _, vars => (vars, none)
  | .cons k child rest, pfx, vars =>
    let s := pfx ++ "/" ++ k
    if child.children.length = 0 then
      nodeWalkF rest pfx (insertS vars s child.value)
    else
      nodeWalkF rest pfx (nodeWalkT child s vars).1
end

mutual
/-- Modelled from the spec: the flat map of leaves of a subtree — every
descendant with zero children, keyed by its full slash-joined path.  Used as
the specification-side description of what `nodeWalk` records. -/
def leavesOf : ZNode → String → Smap
  | .mk v .nil, p => [(p, v)]
  | .mk _ (.cons k c rest), p => leavesOfF (.cons k c rest) p
/-- Leaves of a forest of children rooted at path `p`. -/
def leavesOfF : ZForest → String → Smap
  | .nil, _ => []
  | .cons k c rest, p => leavesOf c (p ++ "/" ++ k) ++ leavesOfF rest p
end

/-- The per-key normalisation done by the zookeeper `GetValues`:
`v = strings.Replace(v, "/\x2a", "", -1)` followed by the
`if v == "/" { v = "" }` special case. -/
def normKey (key : String) : String :=
  let v := goReplaceSlashStar key
  if v = "/" then "" else v

/-- The `for _, v := range keys` loop of the zookeeper `GetValues`, threading
the shared `vars` map: normalise the key, fail with `zk.ErrNoNode` when the
node is absent (surfaced by `nodeWalk`'s `Children` call in the source),
otherwise walk the subtree and continue with the next key.  On error the map
accumulated so far is returned alongside it, as in `return vars, err`. -/
def getValuesAux (store : ZNode) (vars : Smap) : List String → Smap × Option ZkErr
  | [] => (vars, none)
  | key :: rest =>
    let v := normKey key
    match resolvePath store v with
    | none => (vars, some .noNode)
    | some t =>
      match nodeWalkT t v vars with
      | (vars2, some e) => (vars2, some e)
      | (vars2, none) => getValuesAux store vars2 rest

/-- `GetValues` of the zookeeper client. -/
def zkGetValues (store : ZNode) (keys : List String) : Smap × Option ZkErr :=
  getValuesAux store [] keys

/-! ## Zookeeper backend: WatchPrefix -/

/-- The response relayed by a `watch` goroutine over `respChan`. -/
structure WatchResponse where
  waitIndex : String
  err : Option ZkErr
  deriving DecidableEq

/-- The occurrences that make a `watch` goroutine send a response: a failed
`GetW` or `ChildrenW` subscription, a `NodeDataChanged` event, or a
`NodeChildrenChanged` event (the latter two carrying the event's error). -/
inductive WatchTrigger where
  | getwFailed (e : ZkErr)
  | childrenwFailed (e : ZkErr)
  | dataChanged (err : Option ZkErr)
  | childrenChanged (err : Option ZkErr)
  deriving DecidableEq

/-- The response `watch` sends for a trigger: the source always sends
`watchResponse{"", err}` — the relayed `waitIndex` is the empty string. -/
def watchRelayResponse : WatchTrigger → WatchResponse
  | .getwFailed e => ⟨"", some e⟩
  | .childrenwFailed e => ⟨"", some e⟩
  | .dataChanged err => ⟨"", err⟩
  | .childrenChanged err => ⟨"", err⟩

/-- Which of the two arms of the final `select` of the zookeeper `WatchPrefix`
fires first: the external `stopChan`, or the first response relayed over
`respChan` by one of the spawned `watch` goroutines. -/
inductive ZkFirstEvent where
  | stopFired
  | relayed (r : WatchResponse)
  deriving DecidableEq

/-- The zookeeper `WatchPrefix`, by its observable outcome: take the initial
snapshot with `GetValues([prefix])` and return `(waitIndex, err)` if it fails;
otherwise (after spawning one `watch` goroutine per watch target, which does
not affect the returned value) block in the select: `stopChan` wins →
`return waitIndex, nil`; the first relayed response `r` wins →
`return r.waitIndex, r.err`. -/
def watchPrefixZk (store : ZNode) (pfx : String) (keys : List String)
    (waitIndex : String) (first : ZkFirstEvent) : String × Option ZkErr :=
  match (zkGetValues store [pfx]).2 with
  | some e => (waitIndex, some e)
  | none =>
    match first with
    | .stopFired => (waitIndex, none)
    | .relayed r => (r.waitIndex, r.err)

/-- Example store: only leaf `/app/db/host = "x"` under `/app`. -/
def store1 : ZNode :=
  .mk "" (.cons "app"
    (.mk "" (.cons "db"
      (.mk "" (.cons "host" (.mk "x" .nil) .nil)) .nil)) .nil)

/-- Example store: the single leaf `/x = "v"` (no node named `*` anywhere). -/
def store2 : ZNode :=
  .mk "" (.cons "x" (.mk "v" .nil) .nil)

/-! ## SSM backend: GetValues over the parameter store -/

/-- An AWS error (`awserr.Error`), identified by its code string, as consumed
by the source's `err.(awserr.Error).Code()` check. -/
structure AwsErr where
  code : String
  deriving DecidableEq

/-- `ssm.ErrCodeParameterNotFound`. -/
def errCodeParameterNotFound : String := "ParameterNotFound"

/-- The SSM parameter store, as the two requests the source issues: the pages
collected by `GetParametersByPathPages` (whose transport error the source
discards), and the single-name `GetParameter`. -/
structure SsmOracle where
  pathParams : String → List (String × String)
  oneParam : String → Except AwsErr (String × String)

/-- `getParametersWithPrefix` of the ssm client: collect every page entry into
a fresh map; the declared `err` is never assigned, so the error component is
always `none`. -/
def getParametersWithPrefixSsm (o : SsmOracle) (path : String) :
    Smap × Option AwsErr :=
  ((o.pathParams path).foldl (fun acc p => insertS acc p.1 p.2) [], none)

/-- `getParameter` of the ssm client: on error return the empty map and the
error, otherwise the singleton map of the returned parameter. -/
def getParameterSsm (o : SsmOracle) (name : String) : Smap × Option AwsErr :=
  match o.oneParam name with
  | .error e => ([], some e)
  | .ok (n, v) => ([(n, v)], none)

/-- The `for _, key := range keys` loop of the ssm `GetValues`: path-prefix
fetch first; if it yields nothing fall back to `getParameter`, returning
`(vars, err)` unless the error code is `ParameterNotFound`; merge whatever
`resp` holds into `vars` and continue. -/
def getValuesAuxSsm (o : SsmOracle) (vars : Smap) :
    List String → Smap × Option AwsErr
  | [] => (vars, none)
  | key :: rest =>
    match getParametersWithPrefixSsm o key with
    | (_, some e) => (vars, some e)
    | (resp, none) =>
      if resp.length = 0 then
        match getParameterSsm o key with
        | (resp2, some e) =>
          if e.code ≠ errCodeParameterNotFound then (vars, some e)
          else getValuesAuxSsm o (insertAll vars resp2) rest
        | (resp2, none) => getValuesAuxSsm o (insertAll vars resp2) rest
      else getValuesAuxSsm o (insertAll vars resp) rest

/-- `GetValues` of the ssm client. -/
def ssmGetValues (o : SsmOracle) (keys : List String) : Smap × Option AwsErr :=
  getValuesAuxSsm o [] keys

/-! ## SSM backend: WatchPrefix over the Kinesis event stream -/

/-- A generic Go `error` value, for the kinesis/decode failures of the watch
loop. -/
structure GoErr where
  msg : String
  deriving DecidableEq

/-- One Kinesis record, carrying its `Data` bytes. -/
structure KRecord where
  data : String
  deriving DecidableEq

/-- The decoded change event; the watch loop only reads `event.Detail.Name`. -/
structure KEvent where
  detailName : String
  deriving DecidableEq

/-- The Kinesis service plus the JSON decoder, as the four external calls the
watch loop makes: `DescribeStream` (answering `Shards[0].ShardId`),
`GetShardIterator` (shard id, stream name, iterator type), `GetRecords`
(records plus `NextShardIterator`), and `json.Unmarshal` of a record's data. -/
structure KinesisOracle where
  describeStream : String → Except GoErr String
  shardIterator : String → String → String → Except GoErr String
  records : String → Except GoErr (List KRecord × String)
  unmarshal : String → Except GoErr KEvent

/-- The externally visible actions of one ssm `WatchPrefix` call, in order:
the stream description, the shard-iterator request, a sleep of `n` seconds, a
`GetRecords` fetch at a given iterator. -/
inductive KAct where
  | describeStream
  | getShardIterator
  | sleepSecs (n : Nat)
  | getRecords (iterator : String)
  deriving DecidableEq

/-- The `for _, record := range getRecordsOutput.Records` loop: decode each
record (a decode error returns the already-advanced iterator and the error);
if the event's `Detail.Name` has one of `keys` as a prefix, return the
advanced iterator with no error; otherwise keep scanning.  `none` = no record
of the batch matched. -/
def scanRecordsSsm (o : KinesisOracle) (keys : List String) :
    List KRecord → String → Option (String × Option GoErr)
  | [], _ => none
  | r :: rest, nextIt =>
    match o.unmarshal r.data with
    | .error e => some (nextIt, some e)
    | .ok ev =>
      if keys.any (fun k => hasPrefixGo ev.detailName k) then some (nextIt, none)
      else scanRecordsSsm o keys rest nextIt

/-- The unbounded `for { ... }` polling loop of the ssm `WatchPrefix`, run for
`fuel` iterations (result `none` = still looping after `fuel` iterations).
Each iteration: `GetRecords` at the current iterator (on error return the
iterator it fetched with, plus the error), advance the iterator to the batch's
`NextShardIterator`, scan the records, and if nothing matched sleep five
seconds and repeat.  The `stopChan` parameter of the source is never read
anywhere in the loop.  The second component is the trace of external actions
performed. -/
def watchLoopSsm (o : KinesisOracle) (keys : List String) (iterator : String) :
    Nat → Option (String × Option GoErr) × List KAct
  | 0 => (none, [])
  | fuel + 1 =>
    match o.records iterator with
    | .error e => (some (iterator, some e), [.getRecords iterator])
    | .ok (recs, nextIt) =>
      match scanRecordsSsm o keys recs nextIt with
      | some result => (some result, [.getRecords iterator])
      | none =>
        let r := watchLoopSsm o keys nextIt fuel
        (r.1, .getRecords iterator :: .sleepSecs 5 :: r.2)

/-- The ssm `WatchPrefix`: describe the hard-coded stream `"test"`; with an
empty `waitIndex` request a `"LATEST"` shard iterator for `Shards[0]` and
enter the loop with it at once; with a non-empty `waitIndex` use it directly
as the iterator after sleeping five seconds.  `stopFired n` says whether the
external stop signal has fired before iteration boundary `n`; the source never
reads `stopChan`, so the parameter is unused. -/
def watchPrefixSsm (o : KinesisOracle) (pfx : String) (keys : List String)
    (waitIndex : String) (stopFired : Nat → Bool) (fuel : Nat) :
    Option (String × Option GoErr) × List KAct :=
  match o.describeStream "test" with
  | .error e => (some (waitIndex, some e), [.describeStream])
  | .ok shardId =>
    if waitIndex = "" then
      match o.shardIterator shardId "test" "LATEST" with
      | .error e => (some (waitIndex, some e), [.describeStream, .getShardIterator])
      | .ok it0 =>
        let r := watchLoopSsm o keys it0 fuel
        (r.1, .describeStream :: .getShardIterator :: r.2)
    else
      let r := watchLoopSsm o keys waitIndex fuel
      (r.1, .describeStream :: .sleepSecs 5 :: r.2)

/-- A concrete Kinesis oracle: stream resolution and iterator requests
succeed, every fetch returns an empty batch advancing the iterator to
`"it1"`. -/
def kOracle1 : KinesisOracle where
  describeStream := fun _ => .ok "shard-0"
  shardIterator := fun _ _ _ => .ok "it0"
  records := fun _ => .ok ([], "it1")
  unmarshal := fun _ => .ok ⟨""⟩

/-! ## Rancher backend: JSON values and the tree flattener -/

/-- A Go panic.  `interfaceConversion` is the panic raised by the unchecked
type assertion `name.(string)` when the value is not a string. -/
inductive GoPanic where
  | interfaceConversion
  deriving DecidableEq

mutual
/-- The dynamic value `json.Unmarshal` hands to `treeWalk` (a Go
`interface\x7b\x7d`): an object, an array, a bool, a string, a number
(modelled as an integer-valued float64), JSON null, or a value of any other
dynamic type (hitting the `default` arm), carrying its reflected type name. -/
inductive JValue where
  | obj (entries : JEntries)
  | arr (items : JItems)
  | jbool (b : Bool)
  | str (s : String)
  | num (x : Int)
  | jnull
  | other (typeName : String)
  deriving DecidableEq
/-- The entries of a JSON object (`map[string]interface\x7b\x7d`), in the
iteration order the model fixes. -/
inductive JEntries where
  | nil
  | cons (key : String) (val : JValue) (rest : JEntries)
  deriving DecidableEq
/-- The elements of a JSON array (`[]interface\x7b\x7d`). -/
inductive JItems where
  | nil
  | cons (item : JValue) (rest : JItems)
  deriving DecidableEq
end

/-- Go map indexing `i["name"]` over the modelled object entries. -/
def entriesLookup : JEntries → String → Option JValue
  | .nil, _ => none
  | .cons k v rest, q => if k = q then some v else entriesLookup rest q

/-- The path segment `treeWalk` uses for array element `item` at index `i`:
`idx := strconv.Itoa(i)`, overridden by `i["name"].(string)` when the element
is an object with a `"name"` entry — and that unchecked assertion panics when
the `"name"` value is not a string. -/
def segOfItem (i : Nat) (item : JValue) : Except GoPanic String :=
  match item with
  | .obj entries =>
    match entriesLookup entries "name" with
    | some (.str s) => .ok s
    | some _ => .error .interfaceConversion
    | none => .ok (itoa i)
  | _ => .ok (itoa i)

mutual
/-- `treeWalk` of the rancher client: switch on the dynamic type of `val`.
Scalars are rendered into `vars` under `root`; objects and arrays recurse with
slash-joined child paths; any other type appends a diagnostic
(`log.Printf("Unknown type: ...")`) and leaves the walk to continue.  The
result also carries the diagnostic log; a Go panic aborts the whole walk as
`Except.error`. -/
def treeWalk (root : String) (val : JValue) (vars : Smap) (diags : List String) :
    Except GoPanic (Smap × List String) :=
  match val with
  | .obj entries => treeWalkObj root entries vars diags
  | .arr items => treeWalkArr root 0 items vars diags
  | .jbool b => .ok (insertS vars root (formatBoolGo b), diags)
  | .str s => .ok (insertS vars root s, diags)
  | .num x => .ok (insertS vars root (formatFloatGo x), diags)
  | .jnull => .ok (insertS vars root "null", diags)
  | .other t => .ok (vars, diags ++ ["Unknown type: " ++ t])
/-- The object arm of `treeWalk`: recurse into every entry at
`strings.Join([]string{root, k}, "/")` (the recursive call's returned error is
always nil in the source; a panic propagates). -/
def treeWalkObj (root : String) (entries : JEntries) (vars : Smap)
    (diags : List String) : Except GoPanic (Smap × List String) :=
  match entries with
  | .nil => .ok (vars, diags)
  | .cons k v rest =>
    match treeWalk (root ++ "/" ++ k) v vars diags with
    | .error p => .error p
    | .ok (vars2, diags2) => treeWalkObj root rest vars2 diags2
/-- The array arm of `treeWalk`: recurse into element `item` at index `i`
under the segment chosen by `segOfItem`. -/
def treeWalkArr (root : String) (i : Nat) (items : JItems) (vars : Smap)
    (diags : List String) : Except GoPanic (Smap × List String) :=
  match items with
  | .nil => .ok (vars, diags)
  | .cons item rest =>
    match segOfItem i item with
    | .error p => .error p
    | .ok idx =>
      match treeWalk (root ++ "/" ++ idx) item vars diags with
      | .error p => .error p
      | .ok (vars2, diags2) => treeWalkArr root (i + 1) rest vars2 diags2
end

/-- Does an array element avoid the `name.(string)` panic: if it is an object
with a `"name"` entry, that entry must be a string. -/
def itemNameOk : JValue → Bool
  | .obj entries =>
    match entriesLookup entries "name" with
    | some (.str _) => true
    | some _ => false
    | none => true
  | _ => true

mutual
/-- Every `"name"` entry of an array-element object anywhere inside the value
is a string (the condition under which no `name.(string)` assertion can
panic). -/
def namesOkV : JValue → Bool
  | .obj e => namesOkE e
  | .arr l => namesOkA l
  | _ => true
/-- `namesOkV` over the entries of an object. -/
def namesOkE : JEntries → Bool
  | .nil => true
  | .cons _ v rest => namesOkV v && namesOkE rest
/-- `namesOkV` over the elements of an array, also checking each element's own
`"name"` entry. -/
def namesOkA : JItems → Bool
  | .nil => true
  | .cons item rest => itemNameOk item && namesOkV item && namesOkA rest
end

/-! ## Rancher backend: GetValues, WatchPrefix and the connection bootstrap -/

/-- The rancher metadata endpoint plus the JSON decoder, as the two external
calls `GetValues` makes per key: `makeMetaDataRequest` (the GET of
`c.url + path`, yielding the body bytes) and `json.Unmarshal` of that body. -/
structure RancherOracle where
  fetch : String → Except GoErr String
  unmarshal : String → Except GoErr JValue

/-- The `for _, key := range keys` loop of the rancher `GetValues`: fetch the
metadata at the key, decode it, flatten it with `treeWalk` rooted at the key
(discarding the diagnostics log), and continue; a request or decode error
returns the map accumulated so far beside it (`return vars, err`); a panic
inside `treeWalk` aborts the call. -/
def getValuesAuxRancher (o : RancherOracle) (vars : Smap) :
    List String → Except GoPanic (Smap × Option GoErr)
  | [] => .ok (vars, none)
  | key :: rest =>
    match o.fetch key with
    | .error e => .ok (vars, some e)
    | .ok body =>
      match o.unmarshal body with
      | .error e => .ok (vars, some e)
      | .ok jv =>
        match treeWalk key jv vars [] with
        | .error p => .error p
        | .ok (vars2, _) => getValuesAuxRancher o vars2 rest

/-- `GetValues` of the rancher client. -/
def rancherGetValues (o : RancherOracle) (keys : List String) :
    Except GoPanic (Smap × Option GoErr) :=
  getValuesAuxRancher o [] keys

/-- The rancher `WatchPrefix`: watches are not implemented in the metadata
service — the source is literally `return 0, nil`, whatever the inputs. -/
def watchPrefixRancher (pfx : String) (keys : List String) (waitIndex : Nat) :
    Nat × Option GoErr :=
  (0, none)

/-- The `testConnection` retry loop of the rancher client, with the probe of
the root endpoint (`makeMetaDataRequest("/")`) modelled as an attempt-indexed
oracle (`none` = success).  Loop state: `attempt` counts probes, `i` is the Go
loop variable (`for i := 1 * time.Second; i < maxTime; i *= 2` with
`maxTime = 20 * time.Second`), `last` the last error observed.  Returns the
final error-or-success and the list of sleeps performed (in time units). -/
def testConnectionGo (probe : Nat → Option GoErr) (attempt : Nat) (i : Nat)
    (hi : 0 < i) (last : Option GoErr) : Option GoErr × List Nat :=
  if h : i < 20 then
    match probe attempt with
    | none => (none, [])
    | some e =>
      let r := testConnectionGo probe (attempt + 1) (i * 2) (by omega) (some e)
      (r.1, i :: r.2)
  else (last, [])
termination_by 20 - i

/-- `testConnection` of the rancher client: the loop entered with
`i = 1 * time.Second` and no error observed yet. -/
def testConnection (probe : Nat → Option GoErr) : Option GoErr × List Nat :=
  testConnectionGo probe 0 1 Nat.one_pos none

/-! ## Concrete fixtures used by witnesses and counterexamples -/

/-- The spec's flattening example: the JSON value
`[\x7b"name":"eu","val":1\x7d,\x7b"name":"us","val":2\x7d]`. -/
def regionsExample : JValue :=
  .arr (.cons (.obj (.cons "name" (.str "eu") (.cons "val" (.num 1) .nil)))
    (.cons (.obj (.cons "name" (.str "us") (.cons "val" (.num 2) .nil))) .nil))

/-- An array whose single element is an object whose `"name"` entry is a
number — the input on which `name.(string)` panics. -/
def badNameExample : JValue :=
  .arr (.cons (.obj (.cons "name" (.num 7) .nil)) .nil)

/-- A concrete SSM oracle: the path fetch answers only under `/a`; the single
fetch misses `/miss` with `ParameterNotFound`, fails `/boom` with
`AccessDenied`, and answers everything else. -/
def ssmOracle1 : SsmOracle where
  pathParams := fun k => if k = "/a" then [("/a/x", "1")] else []
  oneParam := fun k =>
    if k = "/miss" then .error ⟨"ParameterNotFound"⟩
    else if k = "/boom" then .error ⟨"AccessDenied"⟩
    else .ok (k, "v")

/-- A concrete rancher oracle: `/bad` fails at the transport, every other key
answers a body that decodes to a JSON string. -/
def rancherOracle1 : RancherOracle where
  fetch := fun k => if k = "/bad" then .error ⟨"connection refused"⟩ else .ok ("body:" ++ k)
  unmarshal := fun b => .ok (.str b)

/-- A concrete Kinesis oracle whose very first batch contains a record whose
decoded event name matches the filter key `"k"`. -/
def kOracle2 : KinesisOracle where
  describeStream := fun _ => .ok "shard-0"
  shardIterator := fun _ _ _ => .ok "it0"
  records := fun _ => .ok ([⟨"evt"⟩], "it1")
  unmarshal := fun _ => .ok ⟨"k-name"⟩

/-- A probe of the root endpoint that fails every attempt. -/
def probeAlwaysFail : Nat → Option GoErr := fun _ => some ⟨"connection refused"⟩

/-- A probe that fails attempts 0 and 1 and succeeds from attempt 2 on. -/
def probeSucceedsAt2 : Nat → Option GoErr :=
  fun n => if n < 2 then some ⟨"connection refused"⟩ else none

/-- The subtree of `store1` at path `/app`. -/
def appNode : ZNode :=
  .mk "" (.cons "db" (.mk "" (.cons "host" (.mk "x" .nil) .nil)) .nil)

/-- An external stop signal that has already fired before every iteration
boundary. -/
def stopAlways : Nat → Bool := fun _ => true

/-- Does a trace of watch actions contain no sleep at all. -/
def noSleepIn (tr : List KAct) : Bool :=
  tr.all fun a =>
    match a with
    | .sleepSecs _ => false
    | _ => true

/-- Decidable equality of `Except` results, used to evaluate the embedded
functions on concrete inputs. -/
instance exceptDecEq {e a : Type} [DecidableEq e] [DecidableEq a] :
    DecidableEq (Except e a) := fun x y =>
  match x, y with
  | .error u, .error v =>
    match decEq u v with
    | isTrue h => isTrue (by rw [h])
    | isFalse h => isFalse (by intro hc; cases hc; exact h rfl)
  | .error _, .ok _ => isFalse (by intro hc; cases hc)
  | .ok _, .error _ => isFalse (by intro hc; cases hc)
  | .ok u, .ok v =>
    match decEq u v with
    | isTrue h => isTrue (by rw [h])
    | isFalse h => isFalse (by intro hc; cases hc; exact h rfl)

/-! ## Association-list map lemmas -/

theorem lookupS_insertS (m : Smap) (k v q : String) :
    lookupS (insertS m k v) q = if k = q then some v else lookupS m q := by
  induction m with
  | nil => simp [insertS, lookupS]
  | cons p rest ih =>
    obtain ⟨k', v'⟩ := p
    by_cases h1 : k' = k
    · subst h1
      by_cases h2 : k' = q <;> simp [insertS, lookupS, h2]
    · by_cases h2 : k' = q
      · subst h2
        have hkq : ¬ k = k' := fun h => h1 h.symm
        simp [insertS, lookupS, h1, hkq]
      · simp [insertS, lookupS, h1, h2, ih]

theorem lookupS_isSome_insertS (m : Smap) (k v q : String)
    (h : (lookupS m q).isSome = true) :
    (lookupS (insertS m k v) q).isSome = true := by
  rw [lookupS_insertS]
  by_cases hkq : k = q <;> simp [hkq, h]

theorem insertAll_nil (m : Smap) : insertAll m [] = m := rfl

theorem insertAll_cons (m : Smap) (k v : String) (l : Smap) :
    insertAll m ((k, v) :: l) = insertAll (insertS m k v) l := rfl

theorem insertAll_append (m : Smap) (l1 l2 : Smap) :
    insertAll m (l1 ++ l2) = insertAll (insertAll m l1) l2 := by
  simp [insertAll, List.foldl_append]

theorem lookupS_isSome_insertAll (src : Smap) (m : Smap) (q : String)
    (h : (lookupS m q).isSome = true) :
    (lookupS (insertAll m src) q).isSome = true := by
  induction src generalizing m with
  | nil => simpa [insertAll_nil]
  | cons p rest ih =>
    obtain ⟨k, v⟩ := p
    rw [insertAll_cons]
    exact ih _ (lookupS_isSome_insertS m k v q h)

/-! ## C3: the rancher WatchPrefix -/

/-- C3 counterexample: `PollingStubAdapter.WatchPrefix` does NOT return the
input cursor unchanged — the source is `return 0, nil`, so input cursor `5`
comes back as `0`. -/
theorem watchPrefixRancher_not_input_cursor :
    watchPrefixRancher "/a" [] 5 = (0, none) ∧
      watchPrefixRancher "/a" [] 5 ≠ (5, none) := by
  constructor
  · rfl
  · decide

/-- C3 (amended): for every input, the rancher `WatchPrefix` returns
immediately with cursor `0` and a nil error, independent of prefix, keys and
the input cursor (it coincides with the input cursor only when that cursor is
`0`). -/
theorem watchPrefixRancher_const (pfx : String) (keys : List String)
    (waitIndex : Nat) : watchPrefixRancher pfx keys waitIndex = (0, none) := rfl

/-! ## C7: the connection bootstrap backoff loop -/

theorem testConnectionGo_step (probe : Nat → Option GoErr) (a i : Nat)
    (hi : 0 < i) (last : Option GoErr) (h : i < 20) :
    testConnectionGo probe a i hi last =
      match probe a with
      | none => (none, [])
      | some e =>
        let r := testConnectionGo probe (a + 1) (i * 2) (by omega) (some e)
        (r.1, i :: r.2) := by
  rw [testConnectionGo]
  simp [h]

theorem testConnectionGo_stop (probe : Nat → Option GoErr) (a i : Nat)
    (hi : 0 < i) (last : Option GoErr) (h : ¬ i < 20) :
    testConnectionGo probe a i hi last = (last, []) := by
  rw [testConnectionGo]
  simp [h]

/-- C7: `ConnectionBootstrap` probes the root endpoint with exponential
backoff starting at one time unit and doubling after each failed attempt
(sleeping `[1, 2, 4, ...]`); it stops immediately, with no further waiting, as
soon as a probe succeeds; probes happen exactly while the cumulative elapsed
wait is below the twenty-unit ceiling (attempts 0..4, after which the
cumulative wait `1+2+4+8+16 = 31` has reached the ceiling), and if all of them
fail, construction fails with the last transport error observed. -/
theorem testConnection_spec (probe : Nat → Option GoErr) :
    (∀ k, k ≤ 4 → probe k = none → (∀ j, j < k → probe j ≠ none) →
      testConnection probe = (none, (List.range k).map fun j => 2 ^ j))
    ∧ ((∀ j, j ≤ 4 → probe j ≠ none) →
      ∃ e, probe 4 = some e ∧ testConnection probe = (some e, [1, 2, 4, 8, 16])) := by
  constructor
  · intro k hk hs hf
    interval_cases k
    · rw [testConnection, testConnectionGo_step probe 0 1 Nat.one_pos none (by norm_num)]
      simp [hs]
    · obtain ⟨e0, he0⟩ := Option.ne_none_iff_exists'.mp (hf 0 (by norm_num))
      rw [testConnection, testConnectionGo_step probe 0 1 Nat.one_pos none (by norm_num)]
      rw [he0]
      simp only []
      rw [testConnectionGo_step probe 1 2 (by omega) (some e0) (by norm_num)]
      simp [hs]
      decide
    · obtain ⟨e0, he0⟩ := Option.ne_none_iff_exists'.mp (hf 0 (by norm_num))
      obtain ⟨e1, he1⟩ := Option.ne_none_iff_exists'.mp (hf 1 (by norm_num))
      rw [testConnection, testConnectionGo_step probe 0 1 Nat.one_pos none (by norm_num)]
      rw [he0]
      simp only []
      rw [testConnectionGo_step probe 1 2 (by omega) (some e0) (by norm_num)]
      rw [he1]
      simp only []
      rw [testConnectionGo_step probe 2 4 (by omega) (some e1) (by norm_num)]
      simp [hs]
      decide
    · obtain ⟨e0, he0⟩ := Option.ne_none_iff_exists'.mp (hf 0 (by norm_num))
      obtain ⟨e1, he1⟩ := Option.ne_none_iff_exists'.mp (hf 1 (by norm_num))
      obtain ⟨e2, he2⟩ := Option.ne_none_iff_exists'.mp (hf 2 (by norm_num))
      rw [testConnection, testConnectionGo_step probe 0 1 Nat.one_pos none (by norm_num)]
      rw [he0]
      simp only []
      rw [testConnectionGo_step probe 1 2 (by omega) (some e0) (by norm_num)]
      rw [he1]
      simp only []
      rw [testConnectionGo_step probe 2 4 (by omega) (some e1) (by norm_num)]
      rw [he2]
      simp only []
      rw [testConnectionGo_step probe 3 8 (by omega) (some e2) (by norm_num)]
      simp [hs]
      decide
    · obtain ⟨e0, he0⟩ := Option.ne_none_iff_exists'.mp (hf 0 (by norm_num))
      obtain ⟨e1, he1⟩ := Option.ne_none_iff_exists'.mp (hf 1 (by norm_num))
      obtain ⟨e2, he2⟩ := Option.ne_none_iff_exists'.mp (hf 2 (by norm_num))
      obtain ⟨e3, he3⟩ := Option.ne_none_iff_exists'.mp (hf 3 (by norm_num))
      rw [testConnection, testConnectionGo_step probe 0 1 Nat.one_pos none (by norm_num)]
      rw [he0]
      simp only []
      rw [testConnectionGo_step probe 1 2 (by omega) (some e0) (by norm_num)]
      rw [he1]
      simp only []
      rw [testConnectionGo_step probe 2 4 (by omega) (some e1) (by norm_num)]
      rw [he2]
      simp only []
      rw [testConnectionGo_step probe 3 8 (by omega) (some e2) (by norm_num)]
      rw [he3]
      simp only []
      rw [testConnectionGo_step probe 4 16 (by omega) (some e3) (by norm_num)]
      simp [hs]
      decide
  · intro hf
    obtain ⟨e0, he0⟩ := Option.ne_none_iff_exists'.mp (hf 0 (by norm_num))
    obtain ⟨e1, he1⟩ := Option.ne_none_iff_exists'.mp (hf 1 (by norm_num))
    obtain ⟨e2, he2⟩ := Option.ne_none_iff_exists'.mp (hf 2 (by norm_num))
    obtain ⟨e3, he3⟩ := Option.ne_none_iff_exists'.mp (hf 3 (by norm_num))
    obtain ⟨e4, he4⟩ := Option.ne_none_iff_exists'.mp (hf 4 (by norm_num))
    refine ⟨e4, he4, ?_⟩
    rw [testConnection, testConnectionGo_step probe 0 1 Nat.one_pos none (by norm_num)]
    rw [he0]
    simp only []
    rw [testConnectionGo_step probe 1 2 (by omega) (some e0) (by norm_num)]
    rw [he1]
    simp only []
    rw [testConnectionGo_step probe 2 4 (by omega) (some e1) (by norm_num)]
    rw [he2]
    simp only []
    rw [testConnectionGo_step probe 3 8 (by omega) (some e2) (by norm_num)]
    rw [he3]
    simp only []
    rw [testConnectionGo_step probe 4 16 (by omega) (some e3) (by norm_num)]
    rw [he4]
    simp only []
    rw [testConnectionGo_stop probe 5 32 (by omega) (some e4) (by norm_num)]

/-- C7 witness: a probe failing every attempt makes construction fail with the
last transport error after sleeps `[1, 2, 4, 8, 16]`; a probe first
succeeding at attempt 2 makes construction succeed after sleeps `[1, 2]` with
no further waiting. -/
theorem testConnection_spec_witness :
    testConnection probeSucceedsAt2 = (none, [1, 2]) ∧
      testConnection probeAlwaysFail = (some ⟨"connection refused"⟩, [1, 2, 4, 8, 16]) := by
  constructor
  · have h := (testConnection_spec probeSucceedsAt2).1 2 (by norm_num) (by decide) (by decide)
    simpa using h
  · obtain ⟨e, he, hr⟩ := (testConnection_spec probeAlwaysFail).2 (by decide)
    rw [show probeAlwaysFail 4 = some ⟨"connection refused"⟩ from rfl] at he
    cases he
    exact hr

/-! ## Zookeeper lemmas: nodeWalk records exactly the leaves -/

theorem nodeWalk_eq_leaves :
    ∀ t : ZNode, ∀ p vars, nodeWalkT t p vars = (insertAll vars (leavesOf t p), none) := by
  intro t
  induction t using ZNode.rec
    (motive_2 := fun f => ∀ p vars,
      nodeWalkF f p vars = (insertAll vars (leavesOfF f p), none)) with
  | mk v f ihf =>
    intro p vars
    cases f with
    | nil => simp [nodeWalkT, leavesOf, insertAll_cons, insertAll_nil]
    | cons k c rest =>
      simp only [nodeWalkT, leavesOf]
      exact ihf p vars
  | nil => simp [nodeWalkF, leavesOfF, insertAll_nil]
  | cons k c rest ihc ihr =>
    rename_i p vars
    obtain ⟨cv, cf⟩ := c
    cases cf with
    | nil =>
      simp only [nodeWalkF, leavesOfF, ZNode.children, ZForest.length, ZNode.value,
        leavesOf, insertAll_append, insertAll_cons, insertAll_nil, if_pos]
      exact ihr p (insertS vars (p ++ "/" ++ k) cv)
    | cons k2 c2 rest2 =>
      have hlen : (ZNode.mk cv (.cons k2 c2 rest2)).children.length ≠ 0 := by
        simp [ZNode.children, ZForest.length]
      simp only [nodeWalkF, leavesOfF, if_neg hlen]
      rw [ihc (p ++ "/" ++ k) vars]
      rw [insertAll_append]
      exact ihr p _

/-! ## C5: the zookeeper GetValues -/

/-- C5 counterexample: the zookeeper `GetValues` does NOT merely strip a
trailing wildcard — `strings.Replace(v, "/\x2a", "", -1)` removes every
occurrence.  For the prefix `"/\x2a/x"` over a store whose only node is the
leaf `/x`, the node named by the claim (the unchanged `"/\x2a/x"`, which has no
trailing wildcard) does not exist, so the claim predicts a NotFound failure —
but the code strips the interior `"/\x2a"`, walks `/x` and succeeds. -/
theorem zkGetValues_counterexample :
    (resolvePath store2 "/*/x").isNone = true ∧
      zkGetValues store2 ["/*/x"] = ([("/x", "v")], none) := by
  constructor
  · decide
  · decide

/-- C5 (amended): for every prefix the zookeeper `GetValues` strips every
occurrence of the substring slash-star (not only a trailing wildcard, the
`normKey` normalisation), fails with `zk.ErrNoNode` when the resulting node
does not exist, and otherwise walks the subtree, merging into the accumulated
map exactly the value of every node with zero children keyed by its full path
(`leavesOf`), before continuing with the remaining prefixes; in particular,
over a store whose only leaf under `/app` is `/app/db/host = "x"`,
`GetValues(["/app/\x2a"])` returns exactly that single-entry map. -/
theorem zkGetValues_spec :
    (∀ store vars key rest, (resolvePath store (normKey key)).isNone = true →
        getValuesAux store vars (key :: rest) = (vars, some ZkErr.noNode))
    ∧ (∀ store vars key rest t, resolvePath store (normKey key) = some t →
        getValuesAux store vars (key :: rest) =
          getValuesAux store (insertAll vars (leavesOf t (normKey key))) rest)
    ∧ zkGetValues store1 ["/app/*"] = ([("/app/db/host", "x")], none) := by
  refine ⟨?_, ?_, by decide⟩
  · intro store vars key rest h
    rw [Option.isNone_iff_eq_none] at h
    simp [getValuesAux, h]
  · intro store vars key rest t h
    simp [getValuesAux, h, nodeWalk_eq_leaves]

/-- C5 witness: over `store2` the missing-node arm fires for a key whose
normalised node is absent, and over `store1` the resolved arm fires for
`"/app/\x2a"`, whose normalised node is `appNode`. -/
theorem zkGetValues_spec_witness :
    getValuesAux store2 [] ["/missing"] = ([], some ZkErr.noNode) ∧
      getValuesAux store1 [] ["/app/*"] =
        getValuesAux store1 (insertAll [] (leavesOf appNode (normKey "/app/*"))) [] := by
  constructor
  · exact zkGetValues_spec.1 store2 [] "/missing" [] (by decide)
  · exact zkGetValues_spec.2.1 store1 [] "/app/*" [] appNode (by decide)

/-! ## C1: the zookeeper WatchPrefix -/

/-- C1 counterexample: with a successful initial snapshot and input cursor
`"x"`, a relayed data-change event makes `WatchPrefix` return the relayed
response's cursor — the empty string — not the input cursor unchanged. -/
theorem watchPrefixZk_counterexample :
    (zkGetValues store1 ["/app"]).2 = none ∧
      watchPrefixZk store1 "/app" ["/app"] "x"
          (.relayed (watchRelayResponse (.dataChanged none))) = ("", none) ∧
      watchPrefixZk store1 "/app" ["/app"] "x"
          (.relayed (watchRelayResponse (.dataChanged none))) ≠ ("x", none) := by
  refine ⟨by decide, by decide, by decide⟩

/-- C1 (amended): for every `WatchPrefix` call whose initial snapshot
succeeds: if the external stop signal fires first, the call returns the input
cursor unchanged and a nil error; if a relayed `watch` response arrives first,
the call returns that response's cursor — always the empty string, since
`watch` only ever sends `watchResponse{"", err}` — together with the relayed
error-or-nil (so the input cursor survives only when it was already empty). -/
theorem watchPrefixZk_spec (store : ZNode) (pfx : String) (keys : List String)
    (waitIndex : String) (first : ZkFirstEvent)
    (hsnap : (zkGetValues store [pfx]).2 = none) :
    (first = .stopFired →
        watchPrefixZk store pfx keys waitIndex first = (waitIndex, none))
    ∧ (∀ t, first = .relayed (watchRelayResponse t) →
        watchPrefixZk store pfx keys waitIndex first =
          ("", (watchRelayResponse t).err)) := by
  constructor
  · intro h
    subst h
    simp [watchPrefixZk, hsnap]
  · intro t h
    subst h
    cases t <;> simp [watchPrefixZk, hsnap, watchRelayResponse]

/-- C1 witness: over `store1` (whose snapshot of `/app` succeeds) the stop arm
returns the input cursor `"x"` unchanged with a nil error, and a relayed
children-change arm returns the empty cursor with the relayed nil error. -/
theorem watchPrefixZk_spec_witness :
    watchPrefixZk store1 "/app" ["/app"] "x" .stopFired = ("x", none) ∧
      watchPrefixZk store1 "/app" ["/app"] "x"
          (.relayed (watchRelayResponse (.childrenChanged none))) = ("", none) := by
  constructor
  · exact (watchPrefixZk_spec store1 "/app" ["/app"] "x" .stopFired (by decide)).1 rfl
  · exact (watchPrefixZk_spec store1 "/app" ["/app"] "x"
      (.relayed (watchRelayResponse (.childrenChanged none))) (by decide)).2
      (.childrenChanged none) rfl

/-! ## C6: the ssm GetValues fallback -/

/-- C6: for every key whose hierarchical path-prefix fetch yields nothing, the
ssm `GetValues` falls back to the exact single-name fetch: a
`ParameterNotFound` error from that fallback is swallowed — the key
contributes zero results and processing continues with the remaining keys —
while any other fallback error makes `GetValues` return it (alongside the map
accumulated so far); a successful fallback contributes its single
parameter. -/
theorem ssmGetValues_fallback (o : SsmOracle) (vars : Smap) (key : String)
    (rest : List String)
    (hempty : (getParametersWithPrefixSsm o key).1 = []) :
    (∀ e, o.oneParam key = .error e → e.code = errCodeParameterNotFound →
        getValuesAuxSsm o vars (key :: rest) = getValuesAuxSsm o vars rest)
    ∧ (∀ e, o.oneParam key = .error e → e.code ≠ errCodeParameterNotFound →
        getValuesAuxSsm o vars (key :: rest) = (vars, some e))
    ∧ (∀ n v, o.oneParam key = .ok (n, v) →
        getValuesAuxSsm o vars (key :: rest) =
          getValuesAuxSsm o (insertS vars n v) rest) := by
  have hp : getParametersWithPrefixSsm o key = ([], none) := by
    unfold getParametersWithPrefixSsm at hempty ⊢
    simp only at hempty
    simp [hempty]
  refine ⟨?_, ?_, ?_⟩
  · intro e he hcode
    simp [getValuesAuxSsm, hp, getParameterSsm, he, hcode, insertAll_nil]
  · intro e he hcode
    simp [getValuesAuxSsm, hp, getParameterSsm, he, hcode]
  · intro n v he
    simp [getValuesAuxSsm, hp, getParameterSsm, he, insertAll_cons, insertAll_nil]

/-- C6 witness: over `ssmOracle1` the `/miss` fallback miss is swallowed (the
key contributes nothing), the `/boom` fallback failure is returned with the
accumulated map, and an ordinary key contributes its single parameter. -/
theorem ssmGetValues_fallback_witness :
    getValuesAuxSsm ssmOracle1 [("/a/x", "1")] ["/miss"] =
        getValuesAuxSsm ssmOracle1 [("/a/x", "1")] [] ∧
      getValuesAuxSsm ssmOracle1 [("/a/x", "1")] ["/boom"] =
        ([("/a/x", "1")], some ⟨"AccessDenied"⟩) ∧
      getValuesAuxSsm ssmOracle1 [] ["/b"] = getValuesAuxSsm ssmOracle1 [("/b", "v")] [] := by
  refine ⟨?_, ?_, ?_⟩
  · exact (ssmGetValues_fallback ssmOracle1 [("/a/x", "1")] "/miss" [] (by decide)).1
      ⟨"ParameterNotFound"⟩ rfl (by decide)
  · exact (ssmGetValues_fallback ssmOracle1 [("/a/x", "1")] "/boom" [] (by decide)).2.1
      ⟨"AccessDenied"⟩ rfl (by decide)
  · exact (ssmGetValues_fallback ssmOracle1 [] "/b" [] (by decide)).2.2 "/b" "v" rfl

/-! ## C2 and C9: the ssm WatchPrefix polling loop -/

theorem watchLoopSsm_head (o : KinesisOracle) (keys : List String)
    (it : String) (f : Nat) :
    ∃ tr, (watchLoopSsm o keys it (f + 1)).2 = KAct.getRecords it :: tr := by
  simp only [watchLoopSsm]
  cases h : o.records it with
  | error e =>
    refine ⟨[], ?_⟩
    simp
  | ok p =>
    obtain ⟨recs, nextIt⟩ := p
    cases h2 : scanRecordsSsm o keys recs nextIt with
    | none =>
      refine ⟨.sleepSecs 5 :: (watchLoopSsm o keys nextIt f).2, ?_⟩
      simp [h2]
    | some r =>
      refine ⟨[], ?_⟩
      simp [h2]

/-- C2 counterexample: with an empty input cursor the first record fetch is
NOT preceded by any delay — over `kOracle2` (whose first batch matches) the
whole call completes with the action trace describe-stream,
get-shard-iterator, fetch: no sleep ever happens, contradicting the claimed
fixed delay before the first fetch of the empty-cursor path. -/
theorem watchPrefixSsm_counterexample :
    (watchPrefixSsm kOracle2 "p" ["k"] "" stopAlways 1).1 = some ("it1", none) ∧
      (watchPrefixSsm kOracle2 "p" ["k"] "" stopAlways 1).2 =
        [.describeStream, .getShardIterator, .getRecords "it0"] ∧
      noSleepIn (watchPrefixSsm kOracle2 "p" ["k"] "" stopAlways 1).2 = true := by
  refine ⟨by decide, by decide, by decide⟩

/-- C2 (amended): when the stream description succeeds, a call with an empty
input cursor resolves the stream's shard, requests a `"LATEST"` starting
position, adopts it as the cursor and performs the first record fetch at it
immediately, with no delay; a call with a non-empty input cursor reuses it
directly as the starting position and waits the fixed five-second delay before
the first fetch. -/
theorem watchPrefixSsm_spec (o : KinesisOracle) (pfx : String)
    (keys : List String) (waitIndex : String) (stopFired : Nat → Bool)
    (f : Nat) (shardId : String)
    (hd : o.describeStream "test" = .ok shardId) :
    (∀ it0, waitIndex = "" → o.shardIterator shardId "test" "LATEST" = .ok it0 →
      ∃ tr, (watchPrefixSsm o pfx keys waitIndex stopFired (f + 1)).2 =
        [.describeStream, .getShardIterator, .getRecords it0] ++ tr)
    ∧ (waitIndex ≠ "" →
      ∃ tr, (watchPrefixSsm o pfx keys waitIndex stopFired (f + 1)).2 =
        [.describeStream, .sleepSecs 5, .getRecords waitIndex] ++ tr) := by
  constructor
  · intro it0 hw hit
    subst hw
    obtain ⟨tr, htr⟩ := watchLoopSsm_head o keys it0 f
    refine ⟨tr, ?_⟩
    simp [watchPrefixSsm, hd, hit, htr]
  · intro hw
    obtain ⟨tr, htr⟩ := watchLoopSsm_head o keys waitIndex f
    refine ⟨tr, ?_⟩
    simp [watchPrefixSsm, hd, hw, htr]

/-- C2 witness: over `kOracle1`, the empty-cursor call's trace starts with
describe, get-iterator, immediate fetch at the adopted iterator; the
non-empty-cursor call's trace starts with describe, the five-second sleep,
then the fetch at the reused cursor. -/
theorem watchPrefixSsm_spec_witness :
    (∃ tr, (watchPrefixSsm kOracle1 "p" ["k"] "" stopAlways 1).2 =
        [.describeStream, .getShardIterator, .getRecords "it0"] ++ tr)
    ∧ (∃ tr, (watchPrefixSsm kOracle1 "p" ["k"] "w" stopAlways 1).2 =
        [.describeStream, .sleepSecs 5, .getRecords "w"] ++ tr) := by
  constructor
  · exact (watchPrefixSsm_spec kOracle1 "p" ["k"] "" stopAlways 0 "shard-0" rfl).1
      "it0" rfl rfl
  · exact (watchPrefixSsm_spec kOracle1 "p" ["k"] "w" stopAlways 0 "shard-0" rfl).2
      (by decide)

/-- C9 counterexample: the stop signal is NOT observed at iteration
boundaries — over `kOracle1` (every fetch succeeds with an empty batch) with a
stop signal that fired before every boundary, the call has still not returned
after three full iterations. -/
theorem watchPrefixSsm_stop_counterexample :
    stopAlways 0 = true ∧ stopAlways 3 = true ∧
      (watchPrefixSsm kOracle1 "p" ["k"] "w" stopAlways 3).1 = none := by
  refine ⟨rfl, rfl, by decide⟩

/-- C9 (amended): the ssm `WatchPrefix` never observes the stop signal at all
— neither while blocked on a fetch or sleep nor at iteration boundaries: the
call's entire behaviour is independent of the stop signal, and as long as
every fetch succeeds with an empty batch the loop keeps polling without
returning. -/
theorem watchPrefixSsm_stop_ignored :
    (∀ o pfx keys waitIndex sf sf2 fuel,
        watchPrefixSsm o pfx keys waitIndex sf fuel =
          watchPrefixSsm o pfx keys waitIndex sf2 fuel)
    ∧ (∀ (o : KinesisOracle) keys it fuel,
        (∀ i, ∃ nxt, o.records i = .ok ([], nxt)) →
        (watchLoopSsm o keys it fuel).1 = none) := by
  constructor
  · intro o pfx keys waitIndex sf sf2 fuel
    rfl
  · intro o keys it fuel h
    induction fuel generalizing it with
    | zero => rfl
    | succ f ih =>
      obtain ⟨nxt, hn⟩ := h it
      simp [watchLoopSsm, hn, scanRecordsSsm]
      exact ih nxt

/-- C9 witness: the stop-independence and the non-returning loop instantiated
over `kOracle1`. -/
theorem watchPrefixSsm_stop_ignored_witness :
    watchPrefixSsm kOracle1 "p" ["k"] "w" stopAlways 2 =
        watchPrefixSsm kOracle1 "p" ["k"] "w" (fun _ => false) 2 ∧
      (watchLoopSsm kOracle1 ["k"] "w" 3).1 = none := by
  constructor
  · exact watchPrefixSsm_stop_ignored.1 kOracle1 "p" ["k"] "w" stopAlways (fun _ => false) 2
  · exact watchPrefixSsm_stop_ignored.2 kOracle1 ["k"] "w" 3 (fun i => ⟨"it1", rfl⟩)

/-! ## C4: the tree flattener's rules -/

theorem segOfItem_named (i : Nat) (entries : JEntries) (s : String)
    (h : entriesLookup entries "name" = some (.str s)) :
    segOfItem i (.obj entries) = .ok s := by
  simp [segOfItem, h]

theorem segOfItem_unnamed (i : Nat) (entries : JEntries)
    (h : entriesLookup entries "name" = none) :
    segOfItem i (.obj entries) = .ok (itoa i) := by
  simp [segOfItem, h]

theorem segOfItem_nonObj (i : Nat) (item : JValue) (h : ∀ e, item ≠ .obj e) :
    segOfItem i item = .ok (itoa i) := by
  cases item with
  | obj e => exact absurd rfl (h e)
  | arr l => rfl
  | jbool b => rfl
  | str s => rfl
  | num x => rfl
  | jnull => rfl
  | other t => rfl

/-- C4 counterexample: the spec example flattens to FOUR entries, not two —
the `"name"` entries of the array elements are themselves flattened, so
`/regions/eu/name = "eu"` and `/regions/us/name = "us"` appear beside the two
`val` entries, contradicting the claimed exact two-entry result. -/
theorem treeWalk_example_counterexample :
    treeWalk "/regions" regionsExample [] [] =
        .ok ([("/regions/eu/name", "eu"), ("/regions/eu/val", "1"),
              ("/regions/us/name", "us"), ("/regions/us/val", "2")], []) ∧
      (treeWalk "/regions" regionsExample [] [] =
        .ok ([("/regions/eu/val", "1"), ("/regions/us/val", "2")], [])) = False := by
  refine ⟨by decide, by decide⟩

/-- C4 (amended): the tree flattener renders booleans as `"true"`/`"false"`,
strings as themselves, (integer-valued) numbers as their shortest exact
decimal, and null as `"null"`, each under the root path; it recurses into
object entries at child path root + "/" + key; it recurses into array
elements at the segment chosen exactly as the source does (`segOfItem`): the
element's own `"name"` string if the element is an object containing one,
otherwise the zero-based decimal index; and the example
`[{"name":"eu","val":1},{"name":"us","val":2}]` rooted at `/regions` flattens
to exactly the four entries `/regions/eu/name = "eu"`, `/regions/eu/val = "1"`,
`/regions/us/name = "us"`, `/regions/us/val = "2"` (the `"name"` entries are
flattened too). -/
theorem treeWalk_spec :
    (∀ root b vars ds, treeWalk root (.jbool b) vars ds =
        .ok (insertS vars root (formatBoolGo b), ds))
    ∧ (∀ root s vars ds, treeWalk root (.str s) vars ds =
        .ok (insertS vars root s, ds))
    ∧ (∀ root x vars ds, treeWalk root (.num x) vars ds =
        .ok (insertS vars root (formatFloatGo x), ds))
    ∧ (∀ root vars ds, treeWalk root .jnull vars ds =
        .ok (insertS vars root "null", ds))
    ∧ (∀ root k v rest vars ds m d2,
        treeWalk (root ++ "/" ++ k) v vars ds = .ok (m, d2) →
        treeWalk root (.obj (.cons k v rest)) vars ds = treeWalkObj root rest m d2)
    ∧ (∀ root i item rest vars ds idx m d2,
        segOfItem i item = .ok idx →
        treeWalk (root ++ "/" ++ idx) item vars ds = .ok (m, d2) →
        treeWalkArr root i (.cons item rest) vars ds =
          treeWalkArr root (i + 1) rest m d2)
    ∧ (∀ i entries s, entriesLookup entries "name" = some (.str s) →
        segOfItem i (.obj entries) = .ok s)
    ∧ (∀ i entries, entriesLookup entries "name" = none →
        segOfItem i (.obj entries) = .ok (itoa i))
    ∧ (∀ i item, (∀ e, item ≠ .obj e) → segOfItem i item = .ok (itoa i))
    ∧ treeWalk "/regions" regionsExample [] [] =
        .ok ([("/regions/eu/name", "eu"), ("/regions/eu/val", "1"),
              ("/regions/us/name", "us"), ("/regions/us/val", "2")], []) := by
  refine ⟨?_, ?_, ?_, ?_, ?_, ?_, segOfItem_named, segOfItem_unnamed,
    segOfItem_nonObj, by decide⟩
  · intro root b vars ds
    simp [treeWalk]
  · intro root s vars ds
    simp [treeWalk]
  · intro root x vars ds
    simp [treeWalk]
  · intro root vars ds
    simp [treeWalk]
  · intro root k v rest vars ds m d2 h
    simp [treeWalk, treeWalkObj, h]
  · intro root i item rest vars ds idx m d2 hseg h
    simp [treeWalkArr, hseg, h]

/-- C4 witness: the object-recursion arm and both array-segment arms of the
flattening rules, fired on concrete pieces of the example value. -/
theorem treeWalk_spec_witness :
    treeWalk "/a" (.obj (.cons "k" (.str "w") .nil)) [] [] =
        treeWalkObj "/a" .nil [("/a/k", "w")] [] ∧
      treeWalkArr "/a" 0 (.cons (.num 3) .nil) [] [] =
        treeWalkArr "/a" 1 .nil [("/a/0", "3")] [] ∧
      segOfItem 0 (.obj (.cons "name" (.str "eu") .nil)) = .ok "eu" := by
  refine ⟨?_, ?_, ?_⟩
  · exact treeWalk_spec.2.2.2.2.1 "/a" "k" (.str "w") .nil [] [] [("/a/k", "w")] []
      (by decide)
  · exact treeWalk_spec.2.2.2.2.2.1 "/a" 0 (.num 3) .nil [] [] (itoa 0)
      [("/a/0", "3")] [] (by decide) (by decide)
  · exact treeWalk_spec.2.2.2.2.2.2.1 0 (.cons "name" (.str "eu") .nil) "eu" (by decide)

/-! ## C8: totality of the tree flattener -/

theorem segOfItem_of_nameOk (i : Nat) (item : JValue)
    (h : itemNameOk item = true) : ∃ idx, segOfItem i item = .ok idx := by
  cases item with
  | obj entries =>
    simp only [itemNameOk] at h
    simp only [segOfItem]
    cases hl : entriesLookup entries "name" with
    | none => exact ⟨itoa i, rfl⟩
    | some v =>
      rw [hl] at h
      cases v with
      | str s => exact ⟨s, rfl⟩
      | obj e => simp at h
      | arr l => simp at h
      | jbool b => simp at h
      | num x => simp at h
      | jnull => simp at h
      | other t => simp at h
  | arr l => exact ⟨itoa i, rfl⟩
  | jbool b => exact ⟨itoa i, rfl⟩
  | str s => exact ⟨itoa i, rfl⟩
  | num x => exact ⟨itoa i, rfl⟩
  | jnull => exact ⟨itoa i, rfl⟩
  | other t => exact ⟨itoa i, rfl⟩

/-- C8 counterexample: the flatten is NOT total — an array element that is an
object whose `"name"` entry is a number makes the unchecked `name.(string)`
assertion panic, aborting the whole flatten instead of skipping the entry. -/
theorem treeWalk_panics_on_bad_name :
    treeWalk "/r" badNameExample [] [] = .error .interfaceConversion ∧
      namesOkV badNameExample = false := by
  refine ⟨by decide, by decide⟩

/-- C8 (amended): the flatten completes without aborting on every input value
in which each `"name"` entry of an array-element object (if any) is a string —
including values containing entries of unrecognized dynamic type, which are
skipped with a diagnostic while the walk continues over all remaining entries;
an array-element object whose `"name"` entry is NOT a string, however, aborts
the whole flatten with the `name.(string)` interface-conversion panic. -/
theorem treeWalk_total :
    (∀ (val : JValue) root vars ds, namesOkV val = true →
        ∃ m d2, treeWalk root val vars ds = .ok (m, d2))
    ∧ (∀ root t vars ds, treeWalk root (.other t) vars ds =
        .ok (vars, ds ++ ["Unknown type: " ++ t]))
    ∧ (∀ root k t rest vars ds,
        treeWalkObj root (.cons k (.other t) rest) vars ds =
          treeWalkObj root rest vars (ds ++ ["Unknown type: " ++ t])) := by
  refine ⟨?_, ?_, ?_⟩
  · intro val
    induction val using JValue.rec
      (motive_2 := fun e => ∀ root vars ds, namesOkE e = true →
        ∃ m d2, treeWalkObj root e vars ds = .ok (m, d2))
      (motive_3 := fun l => ∀ root i vars ds, namesOkA l = true →
        ∃ m d2, treeWalkArr root i l vars ds = .ok (m, d2))
    · rename_i e ihe
      intro root vars ds h
      simp only [namesOkV] at h
      simpa [treeWalk] using ihe root vars ds h
    · rename_i l ihl
      intro root vars ds h
      simp only [namesOkV] at h
      simpa [treeWalk] using ihl root 0 vars ds h
    · intro root vars ds h
      exact ⟨_, _, rfl⟩
    · intro root vars ds h
      exact ⟨_, _, rfl⟩
    · intro root vars ds h
      exact ⟨_, _, rfl⟩
    · intro root vars ds h
      exact ⟨_, _, rfl⟩
    · intro root vars ds h
      exact ⟨_, _, rfl⟩
    · rename_i root vars ds h
      exact ⟨vars, ds, rfl⟩
    · rename_i k v rest ihv ihrest root vars ds h
      simp only [namesOkE, Bool.and_eq_true] at h
      obtain ⟨m, d2, hm⟩ := ihv (root ++ "/" ++ k) vars ds h.1
      obtain ⟨m2, d22, hm2⟩ := ihrest root m d2 h.2
      exact ⟨m2, d22, by simp [treeWalkObj, hm, hm2]⟩
    · intro h
      rename_i root i vars ds
      exact ⟨vars, ds, rfl⟩
    · rename_i item rest ihitem ihrest root i vars ds h
      simp only [namesOkA, Bool.and_eq_true] at h
      obtain ⟨idx, hseg⟩ := segOfItem_of_nameOk i item h.1.1
      obtain ⟨m, d2, hm⟩ := ihitem (root ++ "/" ++ idx) vars ds h.1.2
      obtain ⟨m2, d22, hm2⟩ := ihrest root (i + 1) m d2 h.2
      exact ⟨m2, d22, by simp [treeWalkArr, hseg, hm, hm2]⟩
  · intro root t vars ds
    simp [treeWalk]
  · intro root k t rest vars ds
    simp [treeWalkObj, treeWalk]

/-- C8 witness: the totality conjunct fired on the example value (whose
`"name"` entries are all strings). -/
theorem treeWalk_total_witness :
    ∃ m d2, treeWalk "/regions" regionsExample [] [] = .ok (m, d2) :=
  treeWalk_total.1 regionsExample "/regions" [] [] (by decide)

/-! ## C10: partial accumulation on GetValues failure -/

theorem getValuesAux_cons_missing (store : ZNode) (vars : Smap) (key : String)
    (rest : List String) (h : resolvePath store (normKey key) = none) :
    getValuesAux store vars (key :: rest) = (vars, some .noNode) := by
  simp [getValuesAux, h]

theorem getValuesAux_cons_resolved (store : ZNode) (vars : Smap) (key : String)
    (rest : List String) (t : ZNode)
    (h : resolvePath store (normKey key) = some t) :
    getValuesAux store vars (key :: rest) =
      getValuesAux store (insertAll vars (leavesOf t (normKey key))) rest := by
  simp [getValuesAux, h, nodeWalk_eq_leaves]

theorem getValuesAux_append (store : ZNode) :
    ∀ (ks1 : List String) (ks2 : List String) (vars m : Smap),
      getValuesAux store vars ks1 = (m, none) →
      getValuesAux store vars (ks1 ++ ks2) = getValuesAux store m ks2 := by
  intro ks1
  induction ks1 with
  | nil =>
    intro ks2 vars m h
    simp only [getValuesAux] at h
    injection h with h1 h2
    subst h1
    simp
  | cons key rest ih =>
    intro ks2 vars m h
    cases hres : resolvePath store (normKey key) with
    | none =>
      rw [getValuesAux_cons_missing store vars key rest hres] at h
      injection h with h1 h2
      exact absurd h2 (by simp)
    | some t =>
      rw [getValuesAux_cons_resolved store vars key rest t hres] at h
      rw [List.cons_append, getValuesAux_cons_resolved store vars key _ t hres]
      exact ih ks2 _ m h

theorem getValuesAux_mono (store : ZNode) :
    ∀ (ks : List String) (vars : Smap) (q : String),
      (lookupS vars q).isSome = true →
      (lookupS (getValuesAux store vars ks).1 q).isSome = true := by
  intro ks
  induction ks with
  | nil => intro vars q h; simpa [getValuesAux]
  | cons key rest ih =>
    intro vars q h
    cases hres : resolvePath store (normKey key) with
    | none => rw [getValuesAux_cons_missing store vars key rest hres]; exact h
    | some t =>
      rw [getValuesAux_cons_resolved store vars key rest t hres]
      exact ih _ q (lookupS_isSome_insertAll _ vars q h)

theorem ssmStep (o : SsmOracle) (vars : Smap) (key : String) :
    (∃ acc, ∀ rest, getValuesAuxSsm o vars (key :: rest) =
        getValuesAuxSsm o (insertAll vars acc) rest)
    ∨ (∃ e, ∀ rest, getValuesAuxSsm o vars (key :: rest) = (vars, some e)) := by
  have hpair : getParametersWithPrefixSsm o key =
      ((getParametersWithPrefixSsm o key).1, none) := rfl
  by_cases hlen : ((getParametersWithPrefixSsm o key).1).length = 0
  · cases hp : o.oneParam key with
    | error e =>
      by_cases hc : e.code = errCodeParameterNotFound
      · left
        refine ⟨[], fun rest => ?_⟩
        simp only [getValuesAuxSsm]
        rw [hpair]
        simp [hlen, getParameterSsm, hp, hc]
      · right
        refine ⟨e, fun rest => ?_⟩
        simp only [getValuesAuxSsm]
        rw [hpair]
        simp [hlen, getParameterSsm, hp, hc]
    | ok p =>
      left
      refine ⟨[(p.1, p.2)], fun rest => ?_⟩
      simp only [getValuesAuxSsm]
      rw [hpair]
      simp [hlen, getParameterSsm, hp]
  · left
    refine ⟨(getParametersWithPrefixSsm o key).1, fun rest => ?_⟩
    simp only [getValuesAuxSsm]
    rw [hpair]
    simp [hlen]

theorem ssmGetValuesAux_append (o : SsmOracle) :
    ∀ (ks1 ks2 : List String) (vars m : Smap),
      getValuesAuxSsm o vars ks1 = (m, none) →
      getValuesAuxSsm o vars (ks1 ++ ks2) = getValuesAuxSsm o m ks2 := by
  intro ks1
  induction ks1 with
  | nil =>
    intro ks2 vars m h
    simp only [getValuesAuxSsm] at h
    injection h with h1 h2
    subst h1
    simp
  | cons key rest ih =>
    intro ks2 vars m h
    rcases ssmStep o vars key with ⟨acc, hstep⟩ | ⟨e, hstep⟩
    · rw [hstep rest] at h
      rw [List.cons_append, hstep (rest ++ ks2)]
      exact ih ks2 _ m h
    · rw [hstep rest] at h
      injection h with h1 h2
      exact absurd h2 (by simp)

theorem ssmGetValuesAux_mono (o : SsmOracle) :
    ∀ (ks : List String) (vars : Smap) (q : String),
      (lookupS vars q).isSome = true →
      (lookupS (getValuesAuxSsm o vars ks).1 q).isSome = true := by
  intro ks
  induction ks with
  | nil => intro vars q h; simpa [getValuesAuxSsm]
  | cons key rest ih =>
    intro vars q h
    rcases ssmStep o vars key with ⟨acc, hstep⟩ | ⟨e, hstep⟩
    · rw [hstep rest]
      exact ih _ q (lookupS_isSome_insertAll acc vars q h)
    · rw [hstep rest]
      exact h

theorem treeWalk_mono :
    ∀ (val : JValue) (root : String) (vars : Smap) (ds : List String)
      (m : Smap) (d2 : List String) (q : String),
      treeWalk root val vars ds = .ok (m, d2) →
      (lookupS vars q).isSome = true → (lookupS m q).isSome = true := by
  intro val
  induction val using JValue.rec
    (motive_2 := fun e => ∀ root vars ds m d2 q,
      treeWalkObj root e vars ds = .ok (m, d2) →
      (lookupS vars q).isSome = true → (lookupS m q).isSome = true)
    (motive_3 := fun l => ∀ root i vars ds m d2 q,
      treeWalkArr root i l vars ds = .ok (m, d2) →
      (lookupS vars q).isSome = true → (lookupS m q).isSome = true)
  · rename_i e ihe
    intro root vars ds m d2 q h hq
    simp only [treeWalk] at h
    exact ihe root vars ds m d2 q h hq
  · rename_i l ihl
    intro root vars ds m d2 q h hq
    simp only [treeWalk] at h
    exact ihl root 0 vars ds m d2 q h hq
  · intro root vars ds m d2 q h hq
    simp only [treeWalk] at h
    injection h with h1
    injection h1 with h2 h3
    subst h2
    exact lookupS_isSome_insertS vars root _ q hq
  · intro root vars ds m d2 q h hq
    simp only [treeWalk] at h
    injection h with h1
    injection h1 with h2 h3
    subst h2
    exact lookupS_isSome_insertS vars root _ q hq
  · intro root vars ds m d2 q h hq
    simp only [treeWalk] at h
    injection h with h1
    injection h1 with h2 h3
    subst h2
    exact lookupS_isSome_insertS vars root _ q hq
  · intro root vars ds m d2 q h hq
    simp only [treeWalk] at h
    injection h with h1
    injection h1 with h2 h3
    subst h2
    exact lookupS_isSome_insertS vars root _ q hq
  · intro root vars ds m d2 q h hq
    simp only [treeWalk] at h
    injection h with h1
    injection h1 with h2 h3
    subst h2
    exact hq
  · intros
    rename_i root vars ds m d2 q h hq
    simp only [treeWalkObj] at h
    injection h with h1
    injection h1 with h2 h3
    subst h2
    exact hq
  · intros
    rename_i k v rest ihv ihrest root vars ds m d2 q h hq
    simp only [treeWalkObj] at h
    cases hw : treeWalk (root ++ "/" ++ k) v vars ds with
    | error p => rw [hw] at h; exact absurd h (by simp)
    | ok p =>
      obtain ⟨m1, dd1⟩ := p
      rw [hw] at h
      simp only [] at h
      exact ihrest root m1 dd1 m d2 q h (ihv _ vars ds m1 dd1 q hw hq)
  · intros
    rename_i root i vars ds m d2 q h hq
    simp only [treeWalkArr] at h
    injection h with h1
    injection h1 with h2 h3
    subst h2
    exact hq
  · intros
    rename_i item rest ihitem ihrest root i vars ds m d2 q h hq
    simp only [treeWalkArr] at h
    cases hseg : segOfItem i item with
    | error p => rw [hseg] at h; exact absurd h (by simp)
    | ok idx =>
      rw [hseg] at h
      simp only [] at h
      cases hw : treeWalk (root ++ "/" ++ idx) item vars ds with
      | error p => rw [hw] at h; exact absurd h (by simp)
      | ok p =>
        obtain ⟨m1, dd1⟩ := p
        rw [hw] at h
        simp only [] at h
        exact ihrest root (i + 1) m1 dd1 m d2 q h (ihitem _ vars ds m1 dd1 q hw hq)

theorem rancherStep (o : RancherOracle) (vars : Smap) (key : String) :
    (∃ m2, (∀ rest, getValuesAuxRancher o vars (key :: rest) =
          getValuesAuxRancher o m2 rest)
        ∧ ∀ q, (lookupS vars q).isSome = true → (lookupS m2 q).isSome = true)
    ∨ (∃ e, ∀ rest, getValuesAuxRancher o vars (key :: rest) = .ok (vars, some e))
    ∨ (∃ p, ∀ rest, getValuesAuxRancher o vars (key :: rest) = .error p) := by
  cases hf : o.fetch key with
  | error e =>
    right; left
    exact ⟨e, fun rest => by simp [getValuesAuxRancher, hf]⟩
  | ok body =>
    cases hu : o.unmarshal body with
    | error e =>
      right; left
      exact ⟨e, fun rest => by simp [getValuesAuxRancher, hf, hu]⟩
    | ok jv =>
      cases ht : treeWalk key jv vars [] with
      | error p =>
        right; right
        exact ⟨p, fun rest => by simp [getValuesAuxRancher, hf, hu, ht]⟩
      | ok pr =>
        obtain ⟨m2, dd⟩ := pr
        left
        refine ⟨m2, fun rest => by simp [getValuesAuxRancher, hf, hu, ht], ?_⟩
        intro q hq
        exact treeWalk_mono jv key vars [] m2 dd q ht hq

theorem rancherGetValuesAux_append (o : RancherOracle) :
    ∀ (ks1 ks2 : List String) (vars m : Smap),
      getValuesAuxRancher o vars ks1 = .ok (m, none) →
      getValuesAuxRancher o vars (ks1 ++ ks2) = getValuesAuxRancher o m ks2 := by
  intro ks1
  induction ks1 with
  | nil =>
    intro ks2 vars m h
    simp only [getValuesAuxRancher] at h
    injection h with h1
    injection h1 with h2 h3
    subst h2
    simp
  | cons key rest ih =>
    intro ks2 vars m h
    rcases rancherStep o vars key with ⟨m2, hstep, hmono⟩ | ⟨e, hstep⟩ | ⟨p, hstep⟩
    · rw [hstep rest] at h
      rw [List.cons_append, hstep (rest ++ ks2)]
      exact ih ks2 m2 m h
    · rw [hstep rest] at h
      injection h with h1
      injection h1 with h2 h3
      exact absurd h3 (by simp)
    · rw [hstep rest] at h
      exact absurd h (by simp)

theorem rancherGetValuesAux_mono (o : RancherOracle) :
    ∀ (ks : List String) (vars m : Smap) (err : Option GoErr) (q : String),
      getValuesAuxRancher o vars ks = .ok (m, err) →
      (lookupS vars q).isSome = true → (lookupS m q).isSome = true := by
  intro ks
  induction ks with
  | nil =>
    intro vars m err q h hq
    simp only [getValuesAuxRancher] at h
    injection h with h1
    injection h1 with h2 h3
    subst h2
    exact hq
  | cons key rest ih =>
    intro vars m err q h hq
    rcases rancherStep o vars key with ⟨m2, hstep, hmono⟩ | ⟨e, hstep⟩ | ⟨p, hstep⟩
    · rw [hstep rest] at h
      exact ih m2 m err q h (hmono q hq)
    · rw [hstep rest] at h
      injection h with h1
      injection h1 with h2 h3
      subst h2
      exact hq
    · rw [hstep rest] at h
      exact absurd h (by simp)

/-- C10: in every adapter variant, `GetValues` threads one shared result map
through its per-key loop and returns it beside any error (`return vars, err`):
processing a further batch of keys continues from the map accumulated by the
already-successful keys, and every entry recorded before the failing key or
node is still present in the returned map — a failed `GetValues` is not
atomic with respect to its result. -/
theorem getValues_partial_accumulation :
    (∀ (store : ZNode) ks1 ks2 m, zkGetValues store ks1 = (m, none) →
        zkGetValues store (ks1 ++ ks2) = getValuesAux store m ks2)
    ∧ (∀ (store : ZNode) ks1 ks2 m q, zkGetValues store ks1 = (m, none) →
        (lookupS m q).isSome = true →
        (lookupS (zkGetValues store (ks1 ++ ks2)).1 q).isSome = true)
    ∧ (∀ (o : SsmOracle) ks1 ks2 m, ssmGetValues o ks1 = (m, none) →
        ssmGetValues o (ks1 ++ ks2) = getValuesAuxSsm o m ks2)
    ∧ (∀ (o : SsmOracle) ks1 ks2 m q, ssmGetValues o ks1 = (m, none) →
        (lookupS m q).isSome = true →
        (lookupS (ssmGetValues o (ks1 ++ ks2)).1 q).isSome = true)
    ∧ (∀ (o : RancherOracle) ks1 ks2 m, rancherGetValues o ks1 = .ok (m, none) →
        rancherGetValues o (ks1 ++ ks2) = getValuesAuxRancher o m ks2)
    ∧ (∀ (o : RancherOracle) ks1 ks2 m m2 err q,
        rancherGetValues o ks1 = .ok (m, none) →
        rancherGetValues o (ks1 ++ ks2) = .ok (m2, err) →
        (lookupS m q).isSome = true → (lookupS m2 q).isSome = true) := by
  refine ⟨?_, ?_, ?_, ?_, ?_, ?_⟩
  · intro store ks1 ks2 m h
    exact getValuesAux_append store ks1 ks2 [] m h
  · intro store ks1 ks2 m q h hq
    rw [show zkGetValues store (ks1 ++ ks2) = getValuesAux store m ks2 from
      getValuesAux_append store ks1 ks2 [] m h]
    exact getValuesAux_mono store ks2 m q hq
  · intro o ks1 ks2 m h
    exact ssmGetValuesAux_append o ks1 ks2 [] m h
  · intro o ks1 ks2 m q h hq
    rw [show ssmGetValues o (ks1 ++ ks2) = getValuesAuxSsm o m ks2 from
      ssmGetValuesAux_append o ks1 ks2 [] m h]
    exact ssmGetValuesAux_mono o ks2 m q hq
  · intro o ks1 ks2 m h
    exact rancherGetValuesAux_append o ks1 ks2 [] m h
  · intro o ks1 ks2 m m2 err q h h2 hq
    rw [show rancherGetValues o (ks1 ++ ks2) = getValuesAuxRancher o m ks2 from
      rancherGetValuesAux_append o ks1 ks2 [] m h] at h2
    exact rancherGetValuesAux_mono o ks2 m m2 err q h2 hq

/-- C10 witness: in each adapter a failing second key still returns the entry
flattened by the successful first key — zookeeper over `store1` with missing
`/nope`, ssm over `ssmOracle1` with failing `/boom`, rancher over
`rancherOracle1` with failing `/bad`. -/
theorem getValues_partial_accumulation_witness :
    (lookupS (zkGetValues store1 (["/app"] ++ ["/nope"])).1 "/app/db/host").isSome
        = true ∧
      (lookupS (ssmGetValues ssmOracle1 (["/a"] ++ ["/boom"])).1 "/a/x").isSome
        = true ∧
      (lookupS [("/good", "body:/good")] "/good").isSome = true := by
  refine ⟨?_, ?_, ?_⟩
  · exact getValues_partial_accumulation.2.1 store1 ["/app"] ["/nope"]
      [("/app/db/host", "x")] "/app/db/host" (by decide) (by decide)
  · exact getValues_partial_accumulation.2.2.2.1 ssmOracle1 ["/a"] ["/boom"]
      [("/a/x", "1")] "/a/x" (by decide) (by decide)
  · exact getValues_partial_accumulation.2.2.2.2.2 rancherOracle1 ["/good"] ["/bad"]
      [("/good", "body:/good")] [("/good", "body:/good")]
      (some ⟨"connection refused"⟩) "/good" (by decide) (by decide) (by decide)
